import Mathlib

/- Verification of the radio-clock decoder (RCget_dcf77.py, RCget_msf.py,
   RCget_jjy.py): a shallow embedding of the statistics utilities, the phase
   estimator tail, the consensus tracker, the decode loop, the shift buffers,
   the MSF autumn-fold handling and the JJY day-of-year conversion, together
   with theorems settling the frozen claims. -/

namespace RC

/-! ## Statistics utilities (shared by all three protocol files)

Numbers are embedded as rationals: every Python value reached by the claims
is produced by integer arithmetic and exact division, and all the concrete
inputs used below are exactly representable, so float and rational agree. -/

/-- Python round(x): round half to even, as an integer. -/
def pyround (q : ℚ) : ℤ :=
  let f := ⌊q⌋
  let r := q - (f : ℚ)
  if r < 1/2 then f
  else if 1/2 < r then f + 1
  else if f % 2 = 0 then f else f + 1

/-- Python x % m for a positive modulus m: result in [0, m). -/
def pymod (x m : ℚ) : ℚ := x - m * (⌊x / m⌋ : ℤ)

/-- Source: def mean(data): return sum(data) / len(data) -/
def mean (data : List ℚ) : ℚ := data.sum / (data.length : ℚ)

/-- Source: def mid(data): return (max(data) + min(data))/2.
maxQ is Python max on a list; the empty case never occurs on claim inputs. -/
def maxQ : List ℚ → ℚ
  | [] => 0
  | x :: xs => xs.foldl max x

/-- Python min on a list; the empty case never occurs on claim inputs. -/
def minQ : List ℚ → ℚ
  | [] => 0
  | x :: xs => xs.foldl min x

/-- Source: def mid(data): return (max(data) + min(data))/2 -/
def mid (data : List ℚ) : ℚ := (maxQ data + minQ data) / 2

/-- The square of st_dev, kept in ℚ (st_dev itself takes a square root, so
every comparison st_dev(data) > c in the source is embedded as
varQ data > c^2, which is equivalent since both sides are nonnegative). -/
def varQ (data : List ℚ) : ℚ :=
  ((data.map (fun x => (x - mean data)^2)).sum) / ((data.length : ℚ) - 1)

/-- Source st_dev with its failure case made explicit: the division by
len(data)-1 (and, for the empty list, the division inside mean) raises
ZeroDivisionError in Python whenever len(data) <= 1, embedded as none.
The value carried is the variance (see varQ). -/
def st_dev (data : List ℚ) : Option ℚ :=
  if data.length ≤ 1 then none else some (varQ data)

/-- Source: del_outlr removes (first occurrence of) max(data) when
mid(data) > mean(data), else min(data). -/
def del_outlr (data : List ℚ) : List ℚ :=
  if mid data > mean data then data.erase (maxQ data) else data.erase (minQ data)

/-- Source loop: while st_dev(data) > 5 and len(data) > 8: del_outlr(data).
Embedded with fuel = initial length, which is proved sufficient below
(each iteration removes exactly one element and the guard needs length > 8). -/
def outlrLoopF : ℕ → List ℚ → List ℚ
  | 0, data => data
  | fuel+1, data =>
      if 25 < varQ data ∧ 8 < data.length then outlrLoopF fuel (del_outlr data)
      else data

/-- The outlier-removal loop of the source, at fuel = length. -/
def outlrLoop (data : List ℚ) : List ℚ := outlrLoopF data.length data

/-- Source, lines 130-132 of RCget_dcf77.py: the noise-abort test
len(deltas) == period * 2 with period = 16. -/
def noise_abort (deltas : List ℚ) : Bool := deltas.length == 32

/-- Source, lines 139-141: the post-window statistics stage begins by
evaluating st_dev(deltas) in the while-loop guard: with fewer than two
collected timestamps this raises ZeroDivisionError (none) before any
abort/failure result can be produced. -/
def phase_filter (deltas : List ℚ) : Option (List ℚ) :=
  match st_dev deltas with
  | none => none
  | some _ => some (outlrLoop deltas)

/-- Source, lines 142-155: choose shifts when strictly more samples survived
there, then delta_t = round((mean(chosen) - shift) % 1000).  The sort on
line 148 does not change the mean and is omitted. -/
def phase_pipeline (deltas shifts : List ℚ) : ℤ :=
  let deltas2 := outlrLoop deltas
  let shifts2 := outlrLoop shifts
  if deltas2.length < shifts2.length then pyround (pymod (mean shifts2 - 500) 1000)
  else pyround (pymod (mean deltas2 - 0) 1000)

/-- Modelled from the spec words for comparison with the code: the spec says
output = round(mean(chosen) - shift_applied) mod 1000 (round first, then a
mathematical mod into [0,999]). -/
def delta_t_specFormula (chosen : List ℚ) (shift : ℚ) : ℤ :=
  (pyround (mean chosen - shift)) % 1000

/-- Concrete edge-delta sample set: nine edges jittering around the second
boundary, four just before (999 ms) and five just after (0 ms). -/
def dBug : List ℚ := [999, 999, 999, 999, 0, 0, 0, 0, 0]

/-- The corresponding 500 ms-shifted set collected by the same loop. -/
def sBug : List ℚ := [499, 499, 499, 499, 500, 500, 500, 500, 500]

/-- Witness data for the outlier-removal claim: nine samples, one far off. -/
def wOut : List ℚ := [0, 0, 0, 0, 0, 0, 0, 0, 90]

/-! ## Consensus tracker and decode loop (RCget_dcf77.py, lines 159-301)

The decode branch is embedded at the level of one extracted frame: the
sentinel/parity tests on the shift buffers (verified separately in the
buffer section) appear as the booleans dateOk, dstOk, timeOk, and the raw
BCD-decoded values as the numeric fields. -/

/-- One decoded end-of-timecode observation.  dateOk embeds the source test
on line 214 (tcA[23] nonblank and even parity over tcA[:24]); dstOk the test
on line 244 (tcA[42] nonblank and odd parity over tcA[41:43]); timeOk the
test on line 254 (tcA[38] nonblank and both time parities); yr, mon, dy, ds,
hr, mn are the BCD-decoded raw values of lines 216, 226, 235, 245, 255-256. -/
structure Frame where
  dateOk : Bool
  yr : ℕ
  mon : ℕ
  dy : ℕ
  dstOk : Bool
  ds : ℕ
  timeOk : Bool
  hr : ℕ
  mn : ℕ
deriving DecidableEq

/-- Python l[-n:]: the last n elements of a list (all of it when shorter). -/
def lastN (n : ℕ) (l : List ℕ) : List ℕ := l.drop (l.length - n)

/-- Candidate-history state of the run: the five value lists, the four match
flags match[0..3] (year, month, day, DST), the seconds-elapsed counter, and
modv, the value last bound to the Python variable mod (0 standing for the
unbound variable, which no modelled run reads). -/
structure St where
  yrs : List ℕ
  mons : List ℕ
  dys : List ℕ
  mods : List ℕ
  dsts : List ℕ
  mYr : Bool
  mMon : Bool
  mDy : Bool
  mDst : Bool
  elapsed : ℕ
  modv : ℕ
deriving DecidableEq

/-- Cold-start state (line 160 and line 180: empty lists, match all False). -/
def initSt : St := ⟨[], [], [], [], [], false, false, false, false, 0, 0⟩

/-- Source per-field consensus append, e.g. lines 218-222 for the year:
vals = vals[-4:] + [v]; the match flag is set when vals.count(v) == 3. -/
def updField (hist : List ℕ) (v : ℕ) : List ℕ × Bool :=
  let h := lastN 4 hist ++ [v]
  (h, h.count v == 3)

/-- Source lines 216-223: the year append, guarded by its not-yet-matched
flag and the range 23 < yr < 100. -/
def yearStep (s : St) (f : Frame) : St :=
  if !s.mYr ∧ 23 < f.yr ∧ f.yr < 100 then
    let p := updField s.yrs f.yr
    { s with yrs := p.1, mYr := p.2 }
  else s

/-- Source lines 225-232: the month append, range 0 < mon <= 12. -/
def monthStep (s : St) (f : Frame) : St :=
  if !s.mMon ∧ 0 < f.mon ∧ f.mon ≤ 12 then
    let p := updField s.mons f.mon
    { s with mons := p.1, mMon := p.2 }
  else s

/-- Source lines 234-241: the day append, range 0 < dy <= 31. -/
def dayStep (s : St) (f : Frame) : St :=
  if !s.mDy ∧ 0 < f.dy ∧ f.dy ≤ 31 then
    let p := updField s.dys f.dy
    { s with dys := p.1, mDy := p.2 }
  else s

/-- Source lines 214-241: year, month and day appends, all under the shared
dateOk parity test. -/
def dateStep (s : St) (f : Frame) : St :=
  if f.dateOk then dayStep (monthStep (yearStep s f) f) f else s

/-- Source lines 243-250: the DST append under its own parity test. -/
def dstStep (s : St) (f : Frame) : St :=
  if !s.mDst ∧ f.dstOk then
    let p := updField s.dsts f.ds
    { s with dsts := p.1, mDst := p.2 }
  else s

/-- Source lines 255-268: with hr and mn in range, project the stored mods
forward by elapsed//60, reset elapsed, append mod = hr*60 + mn, and on
mod < 5 truncate all date histories to their last entry and clear the
match flags. -/
def timeAppend (s : St) (f : Frame) : St :=
  if f.hr < 24 ∧ f.mn < 60 then
    let m := f.hr * 60 + f.mn
    let mods2 := lastN 4 (s.mods.map (· + s.elapsed / 60)) ++ [m]
    let sA := { s with mods := mods2, elapsed := 0, modv := m }
    if m < 5 then
      { sA with yrs := lastN 1 sA.yrs, mons := lastN 1 sA.mons,
                dys := lastN 1 sA.dys, dsts := lastN 1 sA.dsts,
                mYr := false, mMon := false, mDy := false, mDst := false }
    else sA
  else s

/-- Source lines 271-272: the high-confidence shortcut condition
min(len(yrs), len(mons), len(dys), len(dsts)) > 1 and
max(len(set(yrs)), len(set(mons)), len(set(dys)), len(set(dsts))) == 1. -/
def shortcutCond (s : St) : Bool :=
  (1 < s.yrs.length && 1 < s.mons.length && 1 < s.dys.length && 1 < s.dsts.length) &&
  (s.yrs.dedup.length == 1 && s.mons.dedup.length == 1 &&
   s.dys.dedup.length == 1 && s.dsts.dedup.length == 1)

/-- Source lines 271-274: when the shortcut condition holds, all four match
flags are set at once. -/
def applyShortcut (s : St) : St :=
  if shortcutCond s then { s with mYr := true, mMon := true, mDy := true, mDst := true }
  else s

/-- Source line 277: all(match) and ((len(mods) > 1 and len(set(mods)) == 1)
or mods.count(mod) >= 3); true means the clock is set and the loop breaks
with rc_sync = True. -/
def acceptTest (s : St) : Bool :=
  s.mYr && s.mMon && s.mDy && s.mDst &&
  ((1 < s.mods.length && s.mods.dedup.length == 1) || 3 ≤ s.mods.count s.modv)

/-- One execution of the end-of-timecode decode branch (lines 210-297) on an
extracted frame: the Bool is true exactly when the source reaches the
rtc.datetime call and breaks with rc_sync = True. -/
def decodeStep (s : St) (f : Frame) : St × Bool :=
  let s2 := dstStep (dateStep s f) f
  if f.timeOk then
    let s4 := applyShortcut (timeAppend s2 f)
    (s4, acceptTest s4)
  else (s2, false)

/-- Run status of the decode loop. -/
inductive Status
  | running
  | locked
  | aborted
deriving DecidableEq

/-- One per-second iteration of the decode loop (lines 188-301): elapsed
increments (line 206); when the end-of-timecode marker fired this second the
decode branch runs (acceptance breaks with the clock set: locked); finally
elapsed > timeout*60 breaks with failure (aborted, line 299). -/
def secStep (timeout : ℕ) (s : St) (inp : Option Frame) : St × Status :=
  let s0 := { s with elapsed := s.elapsed + 1 }
  match inp with
  | none => (s0, if timeout * 60 < s0.elapsed then .aborted else .running)
  | some f =>
    let p := decodeStep s0 f
    if p.2 then (p.1, .locked)
    else (p.1, if timeout * 60 < p.1.elapsed then .aborted else .running)

/-- The decode loop over a sequence of seconds: it stops at the first locked
or aborted iteration (the source breaks out of while True). -/
def runLoop (timeout : ℕ) : St → List (Option Frame) → St × Status
  | s, [] => (s, .running)
  | s, inp :: rest =>
    let p := secStep timeout s inp
    match p.2 with
    | .running => runLoop timeout p.1 rest
    | st => (p.1, st)

/-- First counterexample frame for C1: a fully consistent minute at 08:20. -/
def frC1a : Frame := ⟨true, 25, 7, 10, true, 1, true, 8, 20⟩

/-- Second counterexample frame for C1: the following minute, 08:21. -/
def frC1b : Frame := ⟨true, 25, 7, 10, true, 1, true, 8, 21⟩

/-- The state after decoding the two frames, 60 seconds apart, from cold
start. -/
def stC1 : St :=
  let s1 := (decodeStep initSt frC1a).1
  (decodeStep { s1 with elapsed := 60 } frC1b).1

/-- Counterexample state for C2: all date fields matched over earlier
minutes, with minute-of-day history [100, 200]. -/
def stC2 : St := ⟨[25, 25, 25], [7, 7, 7], [10, 10, 10], [100, 200], [1, 1, 1],
  true, true, true, true, 0, 0⟩

/-- Counterexample frame for C2: a decode carrying only a valid time 03:20
(minute-of-day 200, agreeing with the last history entry). -/
def frC2 : Frame := ⟨false, 0, 0, 0, false, 0, true, 3, 20⟩

/-- Witness state for the amended C2: all date fields matched, minute-of-day
history [200, 200]. -/
def stW2 : St := ⟨[25, 25, 25], [7, 7, 7], [10, 10, 10], [200, 200], [1, 1, 1],
  true, true, true, true, 0, 0⟩

/-- Witness state for C6: histories mid-acquisition with matches set. -/
def stC6 : St := ⟨[25, 25, 25], [7, 7], [10, 10, 10], [1438, 1439], [1, 1, 1],
  true, false, true, false, 0, 1439⟩

/-- Witness frame for C6: a decode at 00:03, minute-of-day 3 < 5. -/
def frC6 : Frame := ⟨false, 0, 0, 0, false, 0, true, 0, 3⟩

/-! ## MSF civil time and the autumn fold (RCget_msf.py, lines 262-269) -/

/-- Gregorian leap-year rule (as implemented by the platform time module). -/
def isLeap (y : ℕ) : Bool := (y % 4 == 0 && y % 100 != 0) || y % 400 == 0

/-- Days in month m (1-12) of year y. -/
def daysInMonth (y m : ℕ) : ℕ :=
  if m = 2 then (if isLeap y then 29 else 28)
  else if m = 4 ∨ m = 6 ∨ m = 9 ∨ m = 11 then 30 else 31

/-- Days in the months of year y strictly before month m. -/
def daysBeforeMonth (y m : ℕ) : ℕ :=
  ((List.range (m - 1)).map (fun i => daysInMonth y (i + 1))).sum

/-- Days in the years 2000..y-1 (the MicroPython epoch is 2000-01-01). -/
def daysBeforeYear (y : ℕ) : ℕ :=
  ((List.range (y - 2000)).map (fun i => if isLeap (2000 + i) then 366 else 365)).sum

/-- MicroPython mktime((y, m, d, h, mi, 0, 0, 0, 0)): seconds since
2000-01-01 00:00:00. -/
def mktime (y m d h mi : ℕ) : ℕ :=
  ((daysBeforeYear y + daysBeforeMonth y m + (d - 1)) * 24 + h) * 3600 + mi * 60

/-- What the MSF accept branch (lines 258-280) makes the decode loop do
once a decode has been accepted.  keepListening would mean the loop runs on;
the source never produces it here: both of its paths break. -/
inductive LoopCmd
  | keepListening
  | breakNoSync
  | breakSync (utc : ℕ)
deriving DecidableEq

/-- Source lines 262-269: RCtime = mktime of the decoded local civil time;
fwd and back are the spring-forward and fall-back instants of the decoded
year (last Sundays of March and October); inside (back - 7200, back) the
source breaks out of the decode loop without setting the clock (line 267,
rc_sync stays False); otherwise it converts to UTC, sets the clock and
breaks with rc_sync = True (lines 269-280). -/
def msf_lock_action (year month day hour minute : ℕ) : LoopCmd :=
  let RCtime := mktime year month day hour minute
  let fwd := mktime year 3 (31 - (5 * year / 4 + 4) % 7) 1 0
  let back := mktime year 10 (31 - (5 * year / 4 + 1) % 7) 2 0
  if back - 7200 < RCtime ∧ RCtime < back then .breakNoSync
  else .breakSync (RCtime - (if fwd ≤ RCtime ∧ RCtime < back then 3600 else 0))

/-! ## JJY day-of-year conversion (RCget_jjy.py, lines 261-269) -/

/-- Source lines 262-265: the cumulative day-of-year table, chosen on
year % 4. -/
def month_doys (year : ℕ) : List ℕ :=
  if year % 4 != 0 then [0, 31, 59, 90, 120, 151, 181, 212, 243, 273, 304, 334, 365]
  else [0, 31, 60, 91, 121, 152, 182, 213, 244, 274, 305, 335, 366]

/-- Source lines 266-269: month, day = 1, doy; while table[month] < doy:
day = doy - table[month]; month += 1.  The index is checked (an
out-of-range access would raise IndexError: none) and the loop carries fuel
13, proved sufficient for every valid day-of-year. -/
def doyLoop (table : List ℕ) : ℕ → ℕ → ℕ → ℕ → Option (ℕ × ℕ)
  | 0, _, _, _ => none
  | fuel + 1, month, day, doy =>
    match table.get? month with
    | none => none
    | some t =>
      if t < doy then doyLoop table fuel (month + 1) (doy - t) doy
      else some (month, day)

/-- The day-of-year-to-calendar conversion as run by the source. -/
def doy2md (year doy : ℕ) : Option (ℕ × ℕ) :=
  doyLoop (month_doys year) 13 1 doy doy

/-- The ordinal day number of the calendar date (m, d) in year y. -/
def ordinalDay (year m d : ℕ) : ℕ := daysBeforeMonth year m + d

/-- Bounded check used (at a fixed representative year) to decide the
conversion correctness for one day-of-year value. -/
def convCheck (year doy : ℕ) : Bool :=
  match doy2md year doy with
  | none => false
  | some (m, d) =>
    (1 ≤ m && m ≤ 12 && 1 ≤ d && d ≤ daysInMonth year m) &&
    (daysBeforeMonth year m + d == doy)

/-- Bounded check for the uniqueness direction: converting the ordinal of a
valid (m2, d2) returns exactly (m2, d2). -/
def uniqCheck (year m2 d2 : ℕ) : Bool :=
  doy2md year (daysBeforeMonth year m2 + d2) == some (m2, d2)

/-! ## Shift buffers (the tcA and tcB registers of all three files) -/

/-- One-second register update (e.g. RCget_dcf77.py line 203):
tc = tc[1:] + newChar. -/
def shiftApp (buf : List Char) (c : Char) : List Char := buf.drop 1 ++ [c]

/-- A classified-bit character. -/
def isBit (c : Char) : Bool := c == '0' || c == '1'

/-- The character appended each second, str(round(mean(samples[lo:hi]))),
for the single-digit rounds that occur (the samples are 0/1 GPIO levels). -/
def tc_char (samples : List ℚ) : Char :=
  Char.ofNat (48 + (pyround (mean samples)).toNat)

/-- The register after n seconds: n shift-appends into the initial
all-blank register of the given length. -/
def runBuf (len : ℕ) (f : ℕ → Char) : ℕ → List Char
  | 0 => List.replicate len ' '
  | n + 1 => shiftApp (runBuf len f n) (f n)

/-- The blank-safety property of the three decoders, after n seconds of
appends fA (data register tcA) and fB (second register tcB): blanks form a
contiguous run on the not-yet-filled side, and each field sentinel being
nonblank guarantees that every slice read by that field decode (including
the MSF parity bits taken from tcB) holds only classified bits.  Indices:
dcf77 decodes the reversed 45-char tcA with sentinels 23 (date), 42 (DST)
and 38 (time); MSF indexes the 45-char tcA from the end with sentinels
tcA[-43], tcA[-35], tcA[-21] (positions 2, 10, 24) and reads tcB (8 chars);
JJY indexes the 60-char tcA from the end with sentinels tcA[-20], tcA[-39],
tcA[-60] (positions 40, 21, 0). -/
def BufSafe (n : ℕ) (fA fB : ℕ → Char) : Prop :=
  (∃ k bits, runBuf 45 fA n = List.replicate k ' ' ++ bits ∧
    ∀ c ∈ bits, isBit c = true) ∧
  (((runBuf 45 fA n).reverse.getD 23 ' ' ≠ ' ') →
    ∀ c ∈ (runBuf 45 fA n).reverse.take 24, isBit c = true) ∧
  (((runBuf 45 fA n).reverse.getD 42 ' ' ≠ ' ') →
    ∀ c ∈ (runBuf 45 fA n).reverse.take 43, isBit c = true) ∧
  (((runBuf 45 fA n).reverse.getD 38 ' ' ≠ ' ') →
    ∀ c ∈ (runBuf 45 fA n).reverse.take 39, isBit c = true) ∧
  (((runBuf 45 fA n).getD 2 ' ' ≠ ' ') →
    (∀ c ∈ (runBuf 45 fA n).drop 2, isBit c = true) ∧
    (∀ c ∈ runBuf 8 fB n, isBit c = true)) ∧
  (((runBuf 45 fA n).getD 10 ' ' ≠ ' ') →
    (∀ c ∈ (runBuf 45 fA n).drop 10, isBit c = true) ∧
    (∀ c ∈ runBuf 8 fB n, isBit c = true)) ∧
  (((runBuf 45 fA n).getD 24 ' ' ≠ ' ') →
    (∀ c ∈ (runBuf 45 fA n).drop 24, isBit c = true) ∧
    (∀ c ∈ runBuf 8 fB n, isBit c = true)) ∧
  (((runBuf 60 fA n).getD 40 ' ' ≠ ' ') →
    ∀ c ∈ (runBuf 60 fA n).drop 40, isBit c = true) ∧
  (((runBuf 60 fA n).getD 21 ' ' ≠ ' ') →
    ∀ c ∈ (runBuf 60 fA n).drop 21, isBit c = true) ∧
  (((runBuf 60 fA n).getD 0 ' ' ≠ ' ') →
    ∀ c ∈ runBuf 60 fA n, isBit c = true)

/-- Constant all-ones classified-bit stream, for the buffer witness. -/
def konst1 : ℕ → Char := fun _ => '1'

/-- Aggregate of convCheck over 1 <= d < bound. -/
def convAll (year bound : ℕ) : Bool :=
  (List.range bound).all fun d => d == 0 || convCheck year d

/-- Aggregate of uniqCheck over all valid (m2, d2). -/
def uniqAll (year : ℕ) : Bool :=
  (List.range 13).all fun m2 => (List.range 32).all fun d2 =>
    m2 == 0 || d2 == 0 || !(d2 ≤ daysInMonth year m2 : Bool) || uniqCheck year m2 d2

/-! ## Helper lemmas for the statistics block -/

lemma foldl_max_mem (a : ℚ) (l : List ℚ) : l.foldl max a ∈ a :: l := by
  induction l generalizing a with
  | nil => simp
  | cons b t ih =>
    simp only [List.foldl_cons, List.mem_cons]
    rcases List.mem_cons.1 (ih (max a b)) with h | h
    · rcases max_choice a b with hm | hm
      · exact Or.inl (h.trans hm)
      · exact Or.inr (Or.inl (h.trans hm))
    · exact Or.inr (Or.inr h)

lemma foldl_min_mem (a : ℚ) (l : List ℚ) : l.foldl min a ∈ a :: l := by
  induction l generalizing a with
  | nil => simp
  | cons b t ih =>
    simp only [List.foldl_cons, List.mem_cons]
    rcases List.mem_cons.1 (ih (min a b)) with h | h
    · rcases min_choice a b with hm | hm
      · exact Or.inl (h.trans hm)
      · exact Or.inr (Or.inl (h.trans hm))
    · exact Or.inr (Or.inr h)

lemma maxQ_mem {l : List ℚ} (h : l ≠ []) : maxQ l ∈ l := by
  cases l with
  | nil => exact absurd rfl h
  | cons x xs => exact foldl_max_mem x xs

lemma minQ_mem {l : List ℚ} (h : l ≠ []) : minQ l ∈ l := by
  cases l with
  | nil => exact absurd rfl h
  | cons x xs => exact foldl_min_mem x xs

lemma del_outlr_shrink {d : List ℚ} (h : d ≠ []) :
    (del_outlr d).length + 1 = d.length := by
  have hlen : 1 ≤ d.length := List.length_pos.2 h
  unfold del_outlr
  split
  · rw [List.length_erase_of_mem (maxQ_mem h)]; omega
  · rw [List.length_erase_of_mem (minQ_mem h)]; omega

lemma outlrLoopF_len_le : ∀ (fuel : ℕ) (d : List ℚ),
    (outlrLoopF fuel d).length ≤ d.length := by
  intro fuel
  induction fuel with
  | zero => intro d; simp [outlrLoopF]
  | succ n ih =>
    intro d
    rw [outlrLoopF]
    split
    · next hg =>
      have hne : d ≠ [] := by
        intro h; rw [h] at hg; simp at hg
      have h1 := del_outlr_shrink hne
      calc (outlrLoopF n (del_outlr d)).length ≤ (del_outlr d).length := ih _
        _ ≤ d.length := by omega
    · exact le_rfl

lemma outlrLoopF_exit : ∀ (fuel : ℕ) (d : List ℚ), d.length ≤ fuel + 8 →
    varQ (outlrLoopF fuel d) ≤ 25 ∨ (outlrLoopF fuel d).length ≤ 8 := by
  intro fuel
  induction fuel with
  | zero => intro d h; right; simpa [outlrLoopF] using h
  | succ n ih =>
    intro d h
    rw [outlrLoopF]
    split
    · next hg =>
      have hne : d ≠ [] := by
        intro hd; rw [hd] at hg; simp at hg
      have h1 := del_outlr_shrink hne
      exact ih (del_outlr d) (by omega)
    · next hg =>
      rcases not_and_or.1 hg with h25 | h8
      · exact Or.inl (le_of_not_lt h25)
      · exact Or.inr (le_of_not_lt h8)

/-! ## Claim theorems for the statistics block -/

/-- Claim C7: for every list of numbers with size greater than 8 and sample
standard deviation greater than 5 (equivalently, variance greater than 25),
the repeated outlier-removal loop of the source terminates: each iteration
removes exactly one element (the maximum when the midpoint exceeds the mean,
else the minimum, by definition of del_outlr), so the list strictly shrinks
(in particular the result here is strictly shorter than the input), and on
exit the standard deviation is at most 5 or the size is at most 8. -/
theorem outlier_removal_terminates (data : List ℚ)
    (h1 : 8 < data.length) (h2 : 25 < varQ data) :
    (∀ d : List ℚ, d ≠ [] → (del_outlr d).length + 1 = d.length) ∧
    (outlrLoop data).length < data.length ∧
    (varQ (outlrLoop data) ≤ 25 ∨ (outlrLoop data).length ≤ 8) := by
  refine ⟨fun d hd => del_outlr_shrink hd, ?_, ?_⟩
  · have hne : data ≠ [] := by
      intro hd; rw [hd] at h1; simp at h1
    have hs := del_outlr_shrink hne
    unfold outlrLoop
    obtain ⟨n, hn⟩ : ∃ n, data.length = n + 1 := ⟨data.length - 1, by omega⟩
    rw [hn, outlrLoopF, if_pos ⟨h2, h1⟩]
    have h3 := outlrLoopF_len_le n (del_outlr data)
    omega
  · exact outlrLoopF_exit data.length data (by omega)

/-- Witness for C7 at the concrete nine-element data set wOut. -/
theorem outlier_removal_terminates_witness :
    (8 < wOut.length ∧ 25 < varQ wOut) ∧
    ((∀ d : List ℚ, d ≠ [] → (del_outlr d).length + 1 = d.length) ∧
     (outlrLoop wOut).length < wOut.length ∧
     (varQ (outlrLoop wOut) ≤ 25 ∨ (outlrLoop wOut).length ≤ 8)) := by
  have hl : 8 < wOut.length := by norm_num [wOut]
  have hv : 25 < varQ wOut := by norm_num [varQ, mean, wOut]
  exact ⟨⟨hl, hv⟩, outlier_removal_terminates wOut hl hv⟩

/-- Claim C9: the statistics stage after the collection window first
evaluates st_dev(deltas) in the while-loop guard; when the collection loop
returned 0 or 1 timestamps this divides by zero (none), and neither the
noise-abort test (which needs exactly 32 edges) nor any failure result is
produced instead. -/
theorem stats_stage_div_by_zero (deltas : List ℚ)
    (h : deltas.length = 0 ∨ deltas.length = 1) :
    noise_abort deltas = false ∧ phase_filter deltas = none := by
  rcases h with h | h <;>
    simp [noise_abort, phase_filter, st_dev, h]

/-- Witness for C9 at the one-timestamp collection result. -/
theorem stats_stage_div_by_zero_witness :
    (([(5 : ℚ)].length = 0 ∨ [(5 : ℚ)].length = 1)) ∧
    noise_abort [(5 : ℚ)] = false ∧ phase_filter [(5 : ℚ)] = none := by
  have h : ([(5 : ℚ)].length = 0 ∨ [(5 : ℚ)].length = 1) := Or.inr rfl
  exact ⟨h, stats_stage_div_by_zero [(5 : ℚ)] h⟩

/-! ## Helper lemmas for the consensus tracker -/

lemma lastN_sublist (n : ℕ) (l : List ℕ) : (lastN n l).Sublist l :=
  List.drop_sublist _ _

lemma lastN_len_le (n : ℕ) (l : List ℕ) : (lastN n l).length ≤ n := by
  unfold lastN; rw [List.length_drop]; omega

lemma dedup_len_one_iff {l : List ℕ} {a : ℕ} (ha : a ∈ l) :
    l.dedup.length = 1 ↔ ∀ x ∈ l, x = a := by
  constructor
  · intro h x hx
    obtain ⟨b, hb⟩ := List.length_eq_one.1 h
    have hxb : x ∈ l.dedup := List.mem_dedup.2 hx
    have hab : a ∈ l.dedup := List.mem_dedup.2 ha
    rw [hb] at hxb hab
    simp only [List.mem_singleton] at hxb hab
    rw [hxb, hab]
  · intro h
    have hd : ∀ x ∈ l.dedup, x = a := fun x hx => h x (List.mem_dedup.1 hx)
    have hnd : l.dedup.Nodup := l.nodup_dedup
    have hane : a ∈ l.dedup := List.mem_dedup.2 ha
    rcases hdl : l.dedup with _ | ⟨x, _ | ⟨y, t⟩⟩
    · rw [hdl] at hane; cases hane
    · rfl
    · exfalso
      rw [hdl] at hd hnd
      have hx := hd x (by simp)
      have hy := hd y (by simp)
      have hxy : x ≠ y := by
        intro he
        rcases List.nodup_cons.1 hnd with ⟨hnx, _⟩
        exact hnx (he ▸ List.mem_cons_self y t)
      exact hxy (hx.trans hy.symm)

lemma applyShortcut_yrs (s : St) : (applyShortcut s).yrs = s.yrs := by
  unfold applyShortcut; split <;> rfl

lemma applyShortcut_mods (s : St) : (applyShortcut s).mods = s.mods := by
  unfold applyShortcut; split <;> rfl

lemma applyShortcut_modv (s : St) : (applyShortcut s).modv = s.modv := by
  unfold applyShortcut; split <;> rfl

lemma applyShortcut_flags {s : St} (h : shortcutCond (applyShortcut s) = true) :
    (applyShortcut s).mYr = true ∧ (applyShortcut s).mMon = true ∧
    (applyShortcut s).mDy = true ∧ (applyShortcut s).mDst = true := by
  by_cases hc : shortcutCond s = true
  · simp [applyShortcut, hc]
  · rw [applyShortcut, if_neg (by simpa using hc)] at h ⊢
    exact absurd h hc

lemma shortcutCond_false {s : St} (h : ¬ 1 < s.yrs.length) : shortcutCond s = false := by
  have hd : decide (1 < s.yrs.length) = false := decide_eq_false h
  simp [shortcutCond, hd]

lemma applyShortcut_of_false {s : St} (h : shortcutCond s = false) :
    applyShortcut s = s := by
  rw [applyShortcut, if_neg (by simp [h])]

lemma timeAppend_mod {s : St} {f : Frame} (hh : f.hr < 24) (hm : f.mn < 60) :
    (timeAppend s f).modv = f.hr * 60 + f.mn ∧
    (f.hr * 60 + f.mn) ∈ (timeAppend s f).mods := by
  by_cases h5 : f.hr * 60 + f.mn < 5 <;> simp [timeAppend, hh, hm, h5]

lemma timeAppend_reset {s : St} {f : Frame} (hh : f.hr < 24) (hm : f.mn < 60)
    (h5 : f.hr * 60 + f.mn < 5) :
    (timeAppend s f).yrs.length ≤ 1 ∧ (timeAppend s f).mons.length ≤ 1 ∧
    (timeAppend s f).dys.length ≤ 1 ∧ (timeAppend s f).dsts.length ≤ 1 ∧
    (timeAppend s f).mYr = false ∧ (timeAppend s f).mMon = false ∧
    (timeAppend s f).mDy = false ∧ (timeAppend s f).mDst = false := by
  refine ⟨?_, ?_, ?_, ?_, ?_, ?_, ?_, ?_⟩ <;>
    simp [timeAppend, hh, hm, h5, lastN_len_le]

lemma yearStep_elapsed (s : St) (f : Frame) : (yearStep s f).elapsed = s.elapsed := by
  unfold yearStep; split <;> rfl

lemma monthStep_elapsed (s : St) (f : Frame) : (monthStep s f).elapsed = s.elapsed := by
  unfold monthStep; split <;> rfl

lemma dayStep_elapsed (s : St) (f : Frame) : (dayStep s f).elapsed = s.elapsed := by
  unfold dayStep; split <;> rfl

lemma dateStep_elapsed (s : St) (f : Frame) : (dateStep s f).elapsed = s.elapsed := by
  unfold dateStep
  split
  · rw [dayStep_elapsed, monthStep_elapsed, yearStep_elapsed]
  · rfl

lemma dstStep_elapsed (s : St) (f : Frame) : (dstStep s f).elapsed = s.elapsed := by
  unfold dstStep; split <;> rfl

lemma decodeStep_noTime {s : St} {f : Frame} (h : f.timeOk = false) :
    (decodeStep s f).1.elapsed = s.elapsed ∧ (decodeStep s f).2 = false := by
  constructor
  · simp only [decodeStep, h, Bool.false_eq_true, if_false]
    exact (dstStep_elapsed _ _).trans (dateStep_elapsed _ _)
  · simp [decodeStep, h]

/-! ## Claim theorems for the consensus tracker and decode loop -/

/-- Claim C1, counterexample: decoding two mutually consistent frames from
cold start leaves only 2 agreeing year observations in the history, yet the
high-confidence shortcut (lines 270-274) has already set the year match flag
to true, so the flag can be set with fewer than 3 agreeing observations. -/
theorem shortcut_sets_match_after_two :
    stC1.mYr = true ∧ stC1.yrs = [25, 25] ∧ stC1.yrs.count 25 = 2 := by
  decide

/-- Claim C1, amended: via the per-field consensus rule a field whose
history never holds more than 2 copies of any value (the invariant of the
unmatched state) reports matched exactly when the 3rd agreeing observation
is appended, and never with fewer; the high-confidence shortcut, however,
sets all four flags whenever its two-consistent-sets condition holds, which
needs only 2 agreeing observations per field. -/
theorem field_match_at_third_observation (hist : List ℕ) (v : ℕ)
    (hinv : ∀ w, hist.count w ≤ 2) :
    ((updField hist v).2 = true ↔ (updField hist v).1.count v = 3) ∧
    ((updField hist v).2 = true → hist.count v = 2) ∧
    ((updField hist v).2 = false → ∀ w, (updField hist v).1.count w ≤ 2) ∧
    (∀ s f, f.timeOk = true → shortcutCond (decodeStep s f).1 = true →
      (decodeStep s f).1.mYr = true ∧ (decodeStep s f).1.mMon = true ∧
      (decodeStep s f).1.mDy = true ∧ (decodeStep s f).1.mDst = true) := by
  have hcount : (updField hist v).1.count v = (lastN 4 hist).count v + 1 := by
    simp [updField, List.count_append]
  have hsub : (lastN 4 hist).count v ≤ hist.count v :=
    (lastN_sublist 4 hist).count_le v
  have hflag : (updField hist v).2 = true ↔ (updField hist v).1.count v = 3 := by
    simp [updField]
  refine ⟨hflag, ?_, ?_, ?_⟩
  · intro h
    have h3 := hflag.1 h
    rw [hcount] at h3
    have hiv := hinv v
    omega
  · intro h w
    have hv3 : (updField hist v).1.count v ≠ 3 := by
      intro hc
      rw [hflag.2 hc] at h
      cases h
    by_cases hwv : w = v
    · subst hwv
      have hiw := hinv w
      omega
    · have hw : (updField hist v).1.count w = (lastN 4 hist).count w := by
        simp [updField, List.count_append, List.count_singleton', hwv]
      have hws : (lastN 4 hist).count w ≤ hist.count w :=
        (lastN_sublist 4 hist).count_le w
      have hiw := hinv w
      omega
  · intro s f ht hsc
    have hstep : (decodeStep s f).1 =
        applyShortcut (timeAppend (dstStep (dateStep s f) f) f) := by
      simp [decodeStep, ht]
    rw [hstep] at hsc ⊢
    exact applyShortcut_flags hsc

/-- Witness for the amended C1 at the two-observation history. -/
theorem field_match_at_third_observation_witness :
    (∀ w, ([25, 25] : List ℕ).count w ≤ 2) ∧
    (((updField [25, 25] 25).2 = true ↔ (updField [25, 25] 25).1.count 25 = 3) ∧
     ((updField [25, 25] 25).2 = true → ([25, 25] : List ℕ).count 25 = 2) ∧
     ((updField [25, 25] 25).2 = false → ∀ w, (updField [25, 25] 25).1.count w ≤ 2) ∧
     (∀ s f, f.timeOk = true → shortcutCond (decodeStep s f).1 = true →
       (decodeStep s f).1.mYr = true ∧ (decodeStep s f).1.mMon = true ∧
       (decodeStep s f).1.mDy = true ∧ (decodeStep s f).1.mDst = true)) := by
  have hinv : ∀ w, ([25, 25] : List ℕ).count w ≤ 2 := by
    intro w
    by_cases h : w = 25 <;> simp [List.count_cons, h]
  exact ⟨hinv, field_match_at_third_observation [25, 25] 25 hinv⟩

/-- Claim C2, counterexample: with every non-time field matched and
minute-of-day history [100, 200], decoding minute-of-day 200 appends to
give [100, 200, 200], whose last two entries agree, yet the source does not
accept (its test needs all entries equal, or count at least 3). -/
theorem mod_last_two_agree_rejected :
    (decodeStep stC2 frC2).1.mods = [100, 200, 200] ∧
    (decodeStep stC2 frC2).1.mYr = true ∧ (decodeStep stC2 frC2).1.mMon = true ∧
    (decodeStep stC2 frC2).1.mDy = true ∧ (decodeStep stC2 frC2).1.mDst = true ∧
    (decodeStep stC2 frC2).2 = false := by
  decide

/-- Claim C2, amended: when all non-time fields are matched, a decoded
minute-of-day value is accepted exactly when either the updated history has
at least two entries and all of them agree (with the new value), or the new
value occurs at least 3 times in the updated history. -/
theorem mod_acceptance_iff (s : St) (f : Frame) (ht : f.timeOk = true)
    (hh : f.hr < 24) (hm : f.mn < 60)
    (hmatch : (decodeStep s f).1.mYr = true ∧ (decodeStep s f).1.mMon = true ∧
      (decodeStep s f).1.mDy = true ∧ (decodeStep s f).1.mDst = true) :
    ((decodeStep s f).2 = true ↔
      ((2 ≤ (decodeStep s f).1.mods.length ∧
          ∀ x ∈ (decodeStep s f).1.mods, x = f.hr * 60 + f.mn) ∨
        3 ≤ (decodeStep s f).1.mods.count (f.hr * 60 + f.mn))) := by
  have hstep1 : (decodeStep s f).1 =
      applyShortcut (timeAppend (dstStep (dateStep s f) f) f) := by
    simp [decodeStep, ht]
  have hstep2 : (decodeStep s f).2 =
      acceptTest (applyShortcut (timeAppend (dstStep (dateStep s f) f) f)) := by
    simp [decodeStep, ht]
  rw [hstep1] at hmatch
  rw [hstep1, hstep2]
  obtain ⟨h1, h2, h3, h4⟩ := hmatch
  have htm := timeAppend_mod (s := dstStep (dateStep s f) f) hh hm
  have hmodv : (applyShortcut (timeAppend (dstStep (dateStep s f) f) f)).modv =
      f.hr * 60 + f.mn := by rw [applyShortcut_modv]; exact htm.1
  have hmem : (f.hr * 60 + f.mn) ∈
      (applyShortcut (timeAppend (dstStep (dateStep s f) f) f)).mods := by
    rw [applyShortcut_mods]; exact htm.2
  rw [acceptTest, h1, h2, h3, h4, hmodv]
  simp only [Bool.true_and, Bool.and_eq_true, Bool.or_eq_true,
    decide_eq_true_eq, beq_iff_eq]
  rw [dedup_len_one_iff hmem]
  constructor
  · rintro (⟨hl, hall⟩ | hc)
    · exact Or.inl ⟨by omega, hall⟩
    · exact Or.inr hc
  · rintro (⟨hl, hall⟩ | hc)
    · exact Or.inl ⟨by omega, hall⟩
    · exact Or.inr hc

/-- Witness for the amended C2: history [200, 200] plus a third 200. -/
theorem mod_acceptance_iff_witness :
    (frC2.timeOk = true ∧ frC2.hr < 24 ∧ frC2.mn < 60 ∧
     ((decodeStep stW2 frC2).1.mYr = true ∧ (decodeStep stW2 frC2).1.mMon = true ∧
      (decodeStep stW2 frC2).1.mDy = true ∧ (decodeStep stW2 frC2).1.mDst = true)) ∧
    ((decodeStep stW2 frC2).2 = true ↔
      ((2 ≤ (decodeStep stW2 frC2).1.mods.length ∧
          ∀ x ∈ (decodeStep stW2 frC2).1.mods, x = frC2.hr * 60 + frC2.mn) ∨
        3 ≤ (decodeStep stW2 frC2).1.mods.count (frC2.hr * 60 + frC2.mn))) := by
  have hmatch : (decodeStep stW2 frC2).1.mYr = true ∧
      (decodeStep stW2 frC2).1.mMon = true ∧
      (decodeStep stW2 frC2).1.mDy = true ∧
      (decodeStep stW2 frC2).1.mDst = true := by decide
  exact ⟨⟨rfl, by decide, by decide, hmatch⟩,
    mod_acceptance_iff stW2 frC2 rfl (by decide) (by decide) hmatch⟩

/-- Claim C6: whenever a decoded minute-of-day below 5 is appended (valid
time decode with hr*60 + mn < 5), the resulting state has every non-time
history truncated to length at most 1 and every match flag false (the
shortcut cannot re-fire on length-1 histories), and the decode is not
accepted, so no previously established match survives the step. -/
theorem rollover_clears_matches (s : St) (f : Frame) (ht : f.timeOk = true)
    (hh : f.hr < 24) (hm : f.mn < 60) (h5 : f.hr * 60 + f.mn < 5) :
    (decodeStep s f).1.yrs.length ≤ 1 ∧ (decodeStep s f).1.mons.length ≤ 1 ∧
    (decodeStep s f).1.dys.length ≤ 1 ∧ (decodeStep s f).1.dsts.length ≤ 1 ∧
    (decodeStep s f).1.mYr = false ∧ (decodeStep s f).1.mMon = false ∧
    (decodeStep s f).1.mDy = false ∧ (decodeStep s f).1.mDst = false ∧
    (decodeStep s f).2 = false := by
  have hstep : decodeStep s f =
      (applyShortcut (timeAppend (dstStep (dateStep s f) f) f),
       acceptTest (applyShortcut (timeAppend (dstStep (dateStep s f) f) f))) := by
    simp [decodeStep, ht]
  rw [hstep]
  have hres := timeAppend_reset (s := dstStep (dateStep s f) f) hh hm h5
  have hsc : shortcutCond (timeAppend (dstStep (dateStep s f) f) f) = false :=
    shortcutCond_false (by have := hres.1; omega)
  rw [applyShortcut_of_false hsc]
  refine ⟨hres.1, hres.2.1, hres.2.2.1, hres.2.2.2.1, hres.2.2.2.2.1,
    hres.2.2.2.2.2.1, hres.2.2.2.2.2.2.1, hres.2.2.2.2.2.2.2, ?_⟩
  simp [acceptTest, hres.2.2.2.2.1]

/-- Witness for C6 at a 00:03 decode from cold start. -/
theorem rollover_clears_matches_witness :
    (frC6.timeOk = true ∧ frC6.hr < 24 ∧ frC6.mn < 60 ∧ frC6.hr * 60 + frC6.mn < 5) ∧
    ((decodeStep stC6 frC6).1.yrs.length ≤ 1 ∧ (decodeStep stC6 frC6).1.mons.length ≤ 1 ∧
     (decodeStep stC6 frC6).1.dys.length ≤ 1 ∧ (decodeStep stC6 frC6).1.dsts.length ≤ 1 ∧
     (decodeStep stC6 frC6).1.mYr = false ∧ (decodeStep stC6 frC6).1.mMon = false ∧
     (decodeStep stC6 frC6).1.mDy = false ∧ (decodeStep stC6 frC6).1.mDst = false ∧
     (decodeStep stC6 frC6).2 = false) :=
  ⟨⟨rfl, by decide, by decide, by decide⟩,
   rollover_clears_matches stC6 frC6 rfl (by decide) (by decide) (by decide)⟩

/-- Claim C5: under marker-pattern noise (seconds with no marker, or frames
failing the time sentinel or parity so that no minute-of-day is decoded and
the elapsed counter is never reset), the decode loop reports aborted exactly
when it has run at least one second and the elapsed count passed
timeout*60: the abort happens at the first second strictly beyond the
boundary, never earlier, and the loop stops there (so failure is reported
exactly once). -/
theorem decode_loop_timeout (timeout : ℕ) (s : St) (inputs : List (Option Frame))
    (hn : ∀ o ∈ inputs, ∀ f, o = some f → f.timeOk = false) :
    ((runLoop timeout s inputs).2 = Status.aborted ↔
      1 ≤ inputs.length ∧ timeout * 60 < s.elapsed + inputs.length) := by
  induction inputs generalizing s with
  | nil => simp [runLoop]
  | cons inp rest ih =>
    have hni : ∀ o ∈ rest, ∀ f, o = some f → f.timeOk = false :=
      fun o ho => hn o (List.mem_cons_of_mem _ ho)
    cases inp with
    | none =>
      by_cases habort : timeout * 60 < s.elapsed + 1
      · rw [runLoop]
        simp only [secStep, if_pos habort]
        simp only [List.length_cons]
        constructor
        · intro _; exact ⟨by omega, by omega⟩
        · intro _; trivial
      · rw [runLoop]
        simp only [secStep, if_neg habort]
        rw [ih _ hni]
        simp only [List.length_cons]
        omega
    | some f =>
      have hf : f.timeOk = false := hn (some f) (List.mem_cons_self _ _) f rfl
      have hd := decodeStep_noTime (s := { s with elapsed := s.elapsed + 1 }) (f := f) hf
      by_cases habort : timeout * 60 < s.elapsed + 1
      · rw [runLoop]
        simp only [secStep, hd.2, Bool.false_eq_true, if_false]
        have he : (decodeStep { s with elapsed := s.elapsed + 1 } f).1.elapsed =
            s.elapsed + 1 := hd.1
        rw [he, if_pos habort]
        simp only [List.length_cons]
        constructor
        · intro _; exact ⟨by omega, by omega⟩
        · intro _; trivial
      · rw [runLoop]
        simp only [secStep, hd.2, Bool.false_eq_true, if_false]
        have he : (decodeStep { s with elapsed := s.elapsed + 1 } f).1.elapsed =
            s.elapsed + 1 := hd.1
        rw [he, if_neg habort]
        rw [ih _ hni, he]
        simp only [List.length_cons]
        omega

/-- Witness for C5: 901 noise seconds from cold start with the default
15-minute timeout abort; 900 do not. -/
theorem decode_loop_timeout_witness :
    ((∀ o ∈ List.replicate 901 (none : Option Frame), ∀ f, o = some f → f.timeOk = false) ∧
     (∀ o ∈ List.replicate 900 (none : Option Frame), ∀ f, o = some f → f.timeOk = false)) ∧
    (runLoop 15 initSt (List.replicate 901 (none : Option Frame))).2 = Status.aborted ∧
    ¬(runLoop 15 initSt (List.replicate 900 (none : Option Frame))).2 = Status.aborted := by
  have hn1 : ∀ o ∈ List.replicate 901 (none : Option Frame), ∀ f, o = some f →
      f.timeOk = false := by
    intro o ho f hf
    rw [List.eq_of_mem_replicate ho] at hf
    cases hf
  have hn2 : ∀ o ∈ List.replicate 900 (none : Option Frame), ∀ f, o = some f →
      f.timeOk = false := by
    intro o ho f hf
    rw [List.eq_of_mem_replicate ho] at hf
    cases hf
  have he : initSt.elapsed = 0 := rfl
  refine ⟨⟨hn1, hn2⟩, ?_, ?_⟩
  · rw [decode_loop_timeout 15 initSt _ hn1]
    simp only [List.length_replicate, he]
    omega
  · rw [decode_loop_timeout 15 initSt _ hn2]
    simp only [List.length_replicate, he]
    omega

/-- Claim C3 (code bug): on the collected edge sets dBug (deltas) and sBug
(the 500 ms-shifted copies), the outlier filter shrinks deltas to 8 samples
so the shifted set (9 samples, mean 4496/9) is chosen with shift 500, and
the source formula round((mean - shift) % 1000) yields 1000: outside the
claimed range [0, 999], while the spec formula round(mean - shift) mod 1000
yields 0.  (The subsequent poll ticks_ms()%1000 == delta_t can then never
fire.) -/
theorem delta_t_boundary_bug :
    phase_pipeline dBug sBug = 1000 ∧
    delta_t_specFormula sBug 500 = 0 ∧
    ¬(phase_pipeline dBug sBug ≤ 999) := by
  have h1 : phase_pipeline dBug sBug = 1000 := by
    norm_num [phase_pipeline, outlrLoop, outlrLoopF, varQ, mean, mid, maxQ, minQ, del_outlr,
      dBug, sBug, max_def, min_def, List.erase_cons, beq_iff_eq, pymod, pyround, Int.floor_eq_iff]
  have h2 : delta_t_specFormula sBug 500 = 0 := by
    norm_num [delta_t_specFormula, mean, sBug, pyround, Int.floor_eq_iff]
  exact ⟨h1, h2, by rw [h1]; decide⟩

/-! ## Claim theorems for the MSF autumn fold -/

/-- Claim C4, counterexample: the accepted decode 2025-10-26 01:30 falls in
the repeated local hour before the fall-back instant (02:00); the source
then breaks out of the decode loop with rc_sync still False (line 267): the
clock is not set and the decode is discarded, but the run terminates
without a result instead of continuing to listen. -/
theorem ambiguous_hour_breaks_loop :
    msf_lock_action 2025 10 26 1 30 = LoopCmd.breakNoSync ∧
    msf_lock_action 2025 10 26 1 30 ≠ LoopCmd.keepListening := by
  constructor <;> decide

/-- Claim C4, amended: for every accepted decode whose local civil time
falls in the autumn fall-back repeated-hour window, the engine does not set
the clock and discards the decode, but it breaks out of the decode loop and
ends the run without a result (rc_sync False) rather than continuing to
listen. -/
theorem ambiguous_hour_no_clock_set (y mo d h mi : ℕ)
    (hw : mktime y 10 (31 - (5 * y / 4 + 1) % 7) 2 0 - 7200 < mktime y mo d h mi ∧
      mktime y mo d h mi < mktime y 10 (31 - (5 * y / 4 + 1) % 7) 2 0) :
    msf_lock_action y mo d h mi = LoopCmd.breakNoSync := by
  simp only [msf_lock_action]
  rw [if_pos hw]

/-- Witness for the amended C4 at 2025-10-26 01:30. -/
theorem ambiguous_hour_no_clock_set_witness :
    (mktime 2025 10 (31 - (5 * 2025 / 4 + 1) % 7) 2 0 - 7200 < mktime 2025 10 26 1 30 ∧
     mktime 2025 10 26 1 30 < mktime 2025 10 (31 - (5 * 2025 / 4 + 1) % 7) 2 0) ∧
    msf_lock_action 2025 10 26 1 30 = LoopCmd.breakNoSync :=
  ⟨⟨by decide, by decide⟩,
   ambiguous_hour_no_clock_set 2025 10 26 1 30 ⟨by decide, by decide⟩⟩

/-! ## Helper lemmas and claim theorem for the JJY day-of-year conversion -/

lemma convAll_spec {year bound : ℕ} (h : convAll year bound = true) :
    ∀ d, 1 ≤ d → d < bound → convCheck year d = true := by
  intro d h1 hb
  have hx := List.all_eq_true.1 h d (List.mem_range.2 hb)
  simp only [Bool.or_eq_true, beq_iff_eq] at hx
  rcases hx with h0 | hc
  · omega
  · exact hc

lemma daysInMonth_le (y m : ℕ) : daysInMonth y m ≤ 31 := by
  unfold daysInMonth
  split_ifs <;> norm_num

lemma uniqAll_spec {year : ℕ} (h : uniqAll year = true) :
    ∀ m2 d2, 1 ≤ m2 → m2 ≤ 12 → 1 ≤ d2 → d2 ≤ daysInMonth year m2 →
      uniqCheck year m2 d2 = true := by
  intro m2 d2 hm1 hm2 hd1 hd2
  have hle := daysInMonth_le year m2
  have h1 := List.all_eq_true.1 h m2 (List.mem_range.2 (by omega))
  have h2 := List.all_eq_true.1 h1 d2 (List.mem_range.2 (by omega))
  simp only [Bool.or_eq_true, beq_iff_eq, Bool.not_eq_true', decide_eq_false_iff_not] at h2
  rcases h2 with ((hm0 | hd0) | hnle) | hu
  · omega
  · omega
  · exact absurd hd2 hnle
  · exact hu

lemma isLeap_of_range {y : ℕ} (hy1 : 2024 ≤ y) (hy2 : y ≤ 2099) :
    isLeap y = (y % 4 == 0) := by
  unfold isLeap
  by_cases h4 : y % 4 = 0
  · have h100 : y % 100 ≠ 0 := by omega
    have hb100 : (y % 100 != 0) = true := by simpa using h100
    have hb4 : (y % 4 == 0) = true := by simpa using h4
    rw [hb4, hb100]
    simp
  · have h400 : y % 400 ≠ 0 := by omega
    have hb4 : (y % 4 == 0) = false := by simpa using h4
    have hb400 : (y % 400 == 0) = false := by simpa using h400
    rw [hb4, hb400]
    simp

lemma daysInMonth_congr {y y2 : ℕ} (h : isLeap y = isLeap y2) (m : ℕ) :
    daysInMonth y m = daysInMonth y2 m := by
  unfold daysInMonth; rw [h]

lemma daysBeforeMonth_congr {y y2 : ℕ} (h : isLeap y = isLeap y2) (m : ℕ) :
    daysBeforeMonth y m = daysBeforeMonth y2 m := by
  unfold daysBeforeMonth
  exact congrArg List.sum (List.map_congr_left fun i _ => daysInMonth_congr h (i + 1))

lemma month_doys_eq_leap {y : ℕ} (h : y % 4 = 0) : month_doys y = month_doys 2024 := by
  unfold month_doys
  have hb : (y % 4 != 0) = false := by simp [h]
  rw [hb]
  decide

lemma month_doys_eq_non {y : ℕ} (h : y % 4 ≠ 0) : month_doys y = month_doys 2025 := by
  unfold month_doys
  have hb : (y % 4 != 0) = true := by simpa using h
  rw [hb]
  decide

set_option maxRecDepth 8000 in
/-- Claim C10: for every accepted year 2024-2099 and every day-of-year
1 <= doy <= 365 (366 when the year is divisible by 4), the JJY conversion
loop terminates with fuel to spare (no IndexError) and returns the unique
Gregorian (month, day) pair whose ordinal day number in that year is doy. -/
theorem doy_conversion_correct (year doy : ℕ) (hy : 2024 ≤ year ∧ year ≤ 2099)
    (hd : 1 ≤ doy ∧ doy ≤ (if year % 4 = 0 then 366 else 365)) :
    ∃ m d, doy2md year doy = some (m, d) ∧
      1 ≤ m ∧ m ≤ 12 ∧ 1 ≤ d ∧ d ≤ daysInMonth year m ∧
      ordinalDay year m d = doy ∧
      ∀ m2 d2, 1 ≤ m2 → m2 ≤ 12 → 1 ≤ d2 → d2 ≤ daysInMonth year m2 →
        ordinalDay year m2 d2 = doy → m2 = m ∧ d2 = d := by
  obtain ⟨hdl, hdu⟩ := hd
  have hleap := isLeap_of_range hy.1 hy.2
  by_cases h4 : year % 4 = 0
  · have hb4 : (year % 4 == 0) = true := by simpa using h4
    have hLL : isLeap year = isLeap 2024 := by rw [hleap, hb4]; decide
    have htab : month_doys year = month_doys 2024 := month_doys_eq_leap h4
    have hconv : doy2md year doy = doy2md 2024 doy := by
      unfold doy2md; rw [htab]
    rw [if_pos h4] at hdu
    have hcc : convCheck 2024 doy = true :=
      convAll_spec (by decide : convAll 2024 367 = true) doy hdl (by omega)
    unfold convCheck at hcc
    cases hr : doy2md 2024 doy with
    | none => rw [hr] at hcc; cases hcc
    | some p =>
      obtain ⟨m, d⟩ := p
      rw [hr] at hcc
      simp only [Bool.and_eq_true, decide_eq_true_eq, beq_iff_eq] at hcc
      obtain ⟨⟨⟨⟨hm1, hm2⟩, hd1⟩, hdle⟩, hord⟩ := hcc
      refine ⟨m, d, by rw [hconv, hr], hm1, hm2, hd1, ?_, ?_, ?_⟩
      · rw [daysInMonth_congr hLL m]; exact hdle
      · unfold ordinalDay; rw [daysBeforeMonth_congr hLL m]; exact hord
      · intro m2 d2 g1 g2 g3 g4 gord
        have g4L : d2 ≤ daysInMonth 2024 m2 := by rw [← daysInMonth_congr hLL m2]; exact g4
        have hu := uniqAll_spec (by decide : uniqAll 2024 = true) m2 d2 g1 g2 g3 g4L
        unfold uniqCheck at hu
        simp only [beq_iff_eq] at hu
        have hde : daysBeforeMonth 2024 m2 + d2 = doy := by
          rw [← daysBeforeMonth_congr hLL m2]
          unfold ordinalDay at gord
          exact gord
        rw [hde, hr] at hu
        injection hu with hp
        injection hp with he1 he2
        exact ⟨he1.symm, he2.symm⟩
  · have hb4 : (year % 4 == 0) = false := by simpa using h4
    have hLL : isLeap year = isLeap 2025 := by rw [hleap, hb4]; decide
    have htab : month_doys year = month_doys 2025 := month_doys_eq_non h4
    have hconv : doy2md year doy = doy2md 2025 doy := by
      unfold doy2md; rw [htab]
    rw [if_neg h4] at hdu
    have hcc : convCheck 2025 doy = true :=
      convAll_spec (by decide : convAll 2025 366 = true) doy hdl (by omega)
    unfold convCheck at hcc
    cases hr : doy2md 2025 doy with
    | none => rw [hr] at hcc; cases hcc
    | some p =>
      obtain ⟨m, d⟩ := p
      rw [hr] at hcc
      simp only [Bool.and_eq_true, decide_eq_true_eq, beq_iff_eq] at hcc
      obtain ⟨⟨⟨⟨hm1, hm2⟩, hd1⟩, hdle⟩, hord⟩ := hcc
      refine ⟨m, d, by rw [hconv, hr], hm1, hm2, hd1, ?_, ?_, ?_⟩
      · rw [daysInMonth_congr hLL m]; exact hdle
      · unfold ordinalDay; rw [daysBeforeMonth_congr hLL m]; exact hord
      · intro m2 d2 g1 g2 g3 g4 gord
        have g4L : d2 ≤ daysInMonth 2025 m2 := by rw [← daysInMonth_congr hLL m2]; exact g4
        have hu := uniqAll_spec (by decide : uniqAll 2025 = true) m2 d2 g1 g2 g3 g4L
        unfold uniqCheck at hu
        simp only [beq_iff_eq] at hu
        have hde : daysBeforeMonth 2025 m2 + d2 = doy := by
          rw [← daysBeforeMonth_congr hLL m2]
          unfold ordinalDay at gord
          exact gord
        rw [hde, hr] at hu
        injection hu with hp
        injection hp with he1 he2
        exact ⟨he1.symm, he2.symm⟩

/-- Witness for C10 at year 2024, day-of-year 366. -/
theorem doy_conversion_correct_witness :
    ((2024 ≤ 2024 ∧ 2024 ≤ 2099) ∧
     (1 ≤ 366 ∧ 366 ≤ (if 2024 % 4 = 0 then 366 else 365))) ∧
    (∃ m d, doy2md 2024 366 = some (m, d) ∧
      1 ≤ m ∧ m ≤ 12 ∧ 1 ≤ d ∧ d ≤ daysInMonth 2024 m ∧
      ordinalDay 2024 m d = 366 ∧
      ∀ m2 d2, 1 ≤ m2 → m2 ≤ 12 → 1 ≤ d2 → d2 ≤ daysInMonth 2024 m2 →
        ordinalDay 2024 m2 d2 = 366 → m2 = m ∧ d2 = d) :=
  ⟨⟨⟨by norm_num, by norm_num⟩, ⟨by norm_num, by norm_num⟩⟩,
   doy_conversion_correct 2024 366 ⟨by norm_num, by norm_num⟩ ⟨by norm_num, by norm_num⟩⟩


/-! ## Helper lemmas and claim theorem for the shift buffers -/

lemma getD_replicate_blank (k i : ℕ) : (List.replicate k ' ').getD i ' ' = ' ' := by
  induction k generalizing i with
  | zero => simp
  | succ n ih => cases i <;> simp [List.replicate_succ, ih]

lemma getD_rep_append (k : ℕ) (bits : List Char) (i : ℕ) :
    (List.replicate k ' ' ++ bits).getD i ' ' = if i < k then ' ' else bits.getD (i - k) ' ' := by
  induction k generalizing i with
  | zero => simp
  | succ m ih =>
    cases i with
    | zero => simp [List.replicate_succ]
    | succ j =>
      rw [List.replicate_succ, List.cons_append, List.getD_cons_succ, ih j]
      by_cases hj : j < m
      · rw [if_pos hj, if_pos (by omega)]
      · rw [if_neg hj, if_neg (by omega)]
        congr 1
        omega

lemma drop_rep_append (bits : List Char) : ∀ (k i : ℕ), k ≤ i →
    (List.replicate k ' ' ++ bits).drop i = bits.drop (i - k) := by
  intro k
  induction k with
  | zero => intro i _; simp
  | succ m ih =>
    intro i h
    cases i with
    | zero => omega
    | succ j =>
      rw [List.replicate_succ, List.cons_append, List.drop_succ_cons, ih j (by omega)]
      congr 1
      omega

lemma getD_append_rep (bits : List Char) (k : ℕ) : ∀ i,
    (bits ++ List.replicate k ' ').getD i ' ' =
      if i < bits.length then bits.getD i ' ' else ' ' := by
  induction bits with
  | nil => intro i; simp [getD_replicate_blank]
  | cons c t ih =>
    intro i
    cases i with
    | zero => simp
    | succ j =>
      rw [List.cons_append, List.getD_cons_succ, ih j]
      by_cases hj : j < t.length
      · rw [if_pos hj, if_pos (by simp [Nat.succ_lt_succ_iff, hj]), List.getD_cons_succ]
      · rw [if_neg hj, if_neg (by simp [Nat.succ_lt_succ_iff, hj])]

lemma take_append_rep (bits : List Char) (k : ℕ) : ∀ i, i ≤ bits.length →
    (bits ++ List.replicate k ' ').take i = bits.take i := by
  induction bits with
  | nil =>
    intro i h
    have : i = 0 := by simpa using h
    simp [this]
  | cons c t ih =>
    intro i h
    cases i with
    | zero => simp
    | succ j => simp [ih j (by simpa using h)]

lemma runBuf_eq {len : ℕ} (hlen : 0 < len) (f : ℕ → Char) :
    ∀ n, runBuf len f n =
      List.replicate (len - n) ' ' ++ ((List.range n).map f).drop (n - len) := by
  intro n
  induction n with
  | zero => simp [runBuf]
  | succ n ih =>
    rw [runBuf, ih, shiftApp]
    by_cases hn : n < len
    · have h1 : len - n = (len - (n + 1)) + 1 := by omega
      have h2 : n - len = 0 := by omega
      have h3 : (n + 1) - len = 0 := by omega
      rw [h1, h2, h3]
      simp only [List.drop_zero]
      rw [List.replicate_succ]
      simp only [List.cons_append, List.drop_succ_cons, List.drop_zero]
      rw [List.range_succ, List.map_append, List.append_assoc]
      simp
    · have h1 : len - n = 0 := by omega
      have h2 : len - (n + 1) = 0 := by omega
      rw [h1, h2]
      simp only [List.replicate_zero, List.nil_append]
      rw [List.drop_drop, List.range_succ, List.map_append,
        List.drop_append_of_le_length (by simp; omega)]
      simp only [List.map_cons, List.map_nil]
      congr 2
      omega

lemma bits_of_tail {n m : ℕ} {f : ℕ → Char} (hf : ∀ j, isBit (f j) = true) :
    ∀ c ∈ ((List.range n).map f).drop m, isBit c = true := by
  intro c hc
  have hc2 : c ∈ (List.range n).map f := List.drop_subset _ _ hc
  obtain ⟨j, _, rfl⟩ := List.mem_map.1 hc2
  exact hf j

lemma runBuf_safe_drop {len n i : ℕ} {f : ℕ → Char} (hlen : 0 < len)
    (hf : ∀ j, isBit (f j) = true)
    (hs : (runBuf len f n).getD i ' ' ≠ ' ') :
    ∀ c ∈ (runBuf len f n).drop i, isBit c = true := by
  rw [runBuf_eq hlen f n] at hs ⊢
  rw [getD_rep_append] at hs
  by_cases hik : i < len - n
  · rw [if_pos hik] at hs; exact absurd rfl hs
  · push_neg at hik
    rw [drop_rep_append _ _ _ hik]
    exact fun c hc => bits_of_tail hf c (List.drop_subset _ _ hc)

lemma runBuf_nonblank_lb {len n i : ℕ} {f : ℕ → Char} (hlen : 0 < len)
    (hs : (runBuf len f n).getD i ' ' ≠ ' ') : len - n ≤ i := by
  rw [runBuf_eq hlen f n, getD_rep_append] at hs
  by_contra h
  push_neg at h
  rw [if_pos h] at hs
  exact hs rfl

lemma runBuf_full {len n : ℕ} {f : ℕ → Char} (hlen : 0 < len)
    (hf : ∀ j, isBit (f j) = true) (hn : len ≤ n) :
    ∀ c ∈ runBuf len f n, isBit c = true := by
  rw [runBuf_eq hlen f n]
  have h0 : len - n = 0 := by omega
  rw [h0]
  simp only [List.replicate_zero, List.nil_append]
  exact bits_of_tail hf

lemma runBuf_safe_take {len n i : ℕ} {f : ℕ → Char} (hlen : 0 < len)
    (hf : ∀ j, isBit (f j) = true)
    (hs : (runBuf len f n).reverse.getD i ' ' ≠ ' ') :
    ∀ c ∈ (runBuf len f n).reverse.take (i + 1), isBit c = true := by
  rw [runBuf_eq hlen f n, List.reverse_append, List.reverse_replicate] at hs ⊢
  rw [getD_append_rep] at hs
  by_cases hi : i < (((List.range n).map f).drop (n - len)).reverse.length
  · rw [take_append_rep _ _ _ (by omega)]
    intro c hc
    have hc2 := List.take_subset _ _ hc
    rw [List.mem_reverse] at hc2
    exact bits_of_tail hf c hc2
  · rw [if_neg hi] at hs; exact absurd rfl hs

lemma sum_le_length_of_le_one : ∀ {l : List ℚ}, (∀ x ∈ l, x ≤ 1) → l.sum ≤ l.length := by
  intro l
  induction l with
  | nil => simp
  | cons a t ih =>
    intro h
    simp only [List.sum_cons, List.length_cons]
    have ha := h a (by simp)
    have ht := ih fun x hx => h x (by simp [hx])
    push_cast
    linarith

lemma pyround_bit {q : ℚ} (h0 : 0 ≤ q) (h1 : q ≤ 1) : pyround q = 0 ∨ pyround q = 1 := by
  have hf0 : (0:ℤ) ≤ ⌊q⌋ := Int.floor_nonneg.2 h0
  have hf1 : ⌊q⌋ ≤ 1 := by
    have := Int.floor_le_floor h1
    simpa using this
  simp only [pyround]
  have hfc : ⌊q⌋ = 0 ∨ ⌊q⌋ = 1 := by omega
  rcases hfc with hf | hf
  · rw [hf]
    split_ifs <;> norm_num
  · have hq1 : q = 1 := by
      have hle : (1:ℚ) ≤ q := by
        have := Int.floor_le q
        rw [hf] at this
        exact_mod_cast this
      linarith
    rw [hf, hq1]
    norm_num

lemma tc_char_isBit : ∀ samples : List ℚ, samples ≠ [] →
    (∀ x ∈ samples, x = 0 ∨ x = 1) → isBit (tc_char samples) = true := by
  intro samples hne hx
  have hpos : (0:ℚ) < samples.length := by
    have := List.length_pos.2 hne
    exact_mod_cast this
  have h0 : 0 ≤ mean samples := by
    apply div_nonneg _ (le_of_lt hpos)
    apply List.sum_nonneg
    intro x hxm
    rcases hx x hxm with rfl | rfl <;> norm_num
  have h1 : mean samples ≤ 1 := by
    rw [mean, div_le_one hpos]
    apply sum_le_length_of_le_one
    intro x hxm
    rcases hx x hxm with rfl | rfl <;> norm_num
  rcases pyround_bit h0 h1 with h | h <;>
    · unfold tc_char
      rw [h]
      decide

/-- Claim C8: provided every appended character is a classified bit (which
holds because each appended str(round(mean(samples))) of 0/1 samples is '0'
or '1', first conjunct), the blank characters of each shift register form a
contiguous run on the not-yet-filled side, and in each of the three
decoders every field sentinel that tests nonblank guarantees that every
slice its field decode passes to int(·, 2) — including the MSF parity bits
taken from tcB — holds only bit characters (BufSafe). -/
theorem buffer_slices_bits_only (n : ℕ) (fA fB : ℕ → Char)
    (hA : ∀ i, isBit (fA i) = true) (hB : ∀ i, isBit (fB i) = true) :
    (∀ samples : List ℚ, samples ≠ [] → (∀ x ∈ samples, x = 0 ∨ x = 1) →
      isBit (tc_char samples) = true) ∧
    BufSafe n fA fB := by
  refine ⟨tc_char_isBit, ?_, ?_, ?_, ?_, ?_, ?_, ?_, ?_, ?_, ?_⟩
  · exact ⟨45 - n, _, runBuf_eq (by norm_num) fA n, bits_of_tail hA⟩
  · intro hs
    exact runBuf_safe_take (by norm_num) hA hs
  · intro hs
    exact runBuf_safe_take (by norm_num) hA hs
  · intro hs
    exact runBuf_safe_take (by norm_num) hA hs
  · intro hs
    refine ⟨runBuf_safe_drop (by norm_num) hA hs, ?_⟩
    have hlb := runBuf_nonblank_lb (by norm_num) hs
    exact runBuf_full (by norm_num) hB (by omega)
  · intro hs
    refine ⟨runBuf_safe_drop (by norm_num) hA hs, ?_⟩
    have hlb := runBuf_nonblank_lb (by norm_num) hs
    exact runBuf_full (by norm_num) hB (by omega)
  · intro hs
    refine ⟨runBuf_safe_drop (by norm_num) hA hs, ?_⟩
    have hlb := runBuf_nonblank_lb (by norm_num) hs
    exact runBuf_full (by norm_num) hB (by omega)
  · intro hs
    exact runBuf_safe_drop (by norm_num) hA hs
  · intro hs
    exact runBuf_safe_drop (by norm_num) hA hs
  · intro hs
    have := runBuf_safe_drop (i := 0) (by norm_num) hA hs
    simpa using this

/-- Witness for C8 at 45 seconds of all-ones streams. -/
theorem buffer_slices_bits_only_witness :
    ((∀ i, isBit (konst1 i) = true) ∧ (∀ i, isBit (konst1 i) = true)) ∧
    ((∀ samples : List ℚ, samples ≠ [] → (∀ x ∈ samples, x = 0 ∨ x = 1) →
       isBit (tc_char samples) = true) ∧
     BufSafe 45 konst1 konst1) :=
  ⟨⟨fun _ => rfl, fun _ => rfl⟩,
   buffer_slices_bits_only 45 konst1 konst1 (fun _ => rfl) (fun _ => rfl)⟩

end RC
